import Mathlib

set_option maxHeartbeats 1000000

/-!
Shallow embedding of the CoinMarketCap scraper
(`crypto_data_inject_demo.py`): the text normaliser `clean_text`, the
per-field heuristic classifiers of `extract_from_row`, the row extractor
itself, and the collection loop `scrape_top_n`.  The browser-automation
layer is modelled as explicit optional inputs: `none` stands for a
provider call that failed, timed out, or returned no element, so that the
surrounding `except` handler ran.
-/

/-- ASCII whitespace as matched by `\s` in the Python regexes
(`re.sub(r"\s+", " ", s)` and friends); the rarely seen non-ASCII
additions of Unicode `\s` are not modelled. -/
def isSpace (c : Char) : Bool :=
  c == ' ' || c == '\t' || c == '\n' || c == '\r' || c == '\x0b' || c == '\x0c'

/-- One pass of `re.sub(r"\s+", " ", s)`: every maximal run of whitespace
becomes a single space.  The Boolean flag records whether the previous
character was whitespace (so the current run is already represented by a
space in the output). -/
def squeeze : Bool → List Char → List Char
  | _, [] => []
  | prev, c :: cs =>
      if isSpace c then
        if prev then squeeze true cs else ' ' :: squeeze true cs
      else c :: squeeze false cs

/-- Python `str.strip()`: drop leading and trailing whitespace. -/
def stripChars (l : List Char) : List Char :=
  ((l.dropWhile isSpace).reverse.dropWhile isSpace).reverse

/-- Function `clean_text` (source lines 49–52): `""` for `None`, otherwise collapse
every whitespace run to a single space and strip. -/
def clean_text : Option String → String
  | none => ""
  | some s => ⟨stripChars (squeeze false s.data)⟩

/-- Function `safe_text` (source lines 54–60): the text content of a locator,
cleaned; a provider exception or timeout (modelled by `none`) is absorbed
as `""`. -/
def safe_text : Option String → String
  | none => ""
  | some s => clean_text (some s)

/-- Function `likely_money` (source line 62): `bool(s and "$" in s)`. -/
def likely_money (s : String) : Bool := s != "" && s.data.contains '$'

/-- Function `likely_percent` (source line 65): `bool(s and "%" in s)`. -/
def likely_percent (s : String) : Bool := s != "" && s.data.contains '%'

/-- Model of `re.match(r"^\s*(\d{1,4})\b", t)` (source line 99): optional leading
whitespace, then one to four digits, then a word boundary.  Backtracking
makes the match succeed exactly when the full leading digit run has
length 1–4 and is followed by a non-word character or the end; the
captured group is that digit run. -/
def rankMatch (t : String) : Option String :=
  let l := t.data.dropWhile isSpace
  let ds := l.takeWhile Char.isDigit
  let rest := l.drop ds.length
  let bdry : Bool :=
    match rest with
    | [] => true
    | c :: _ => !(c.isAlpha || c.isDigit || c == '_')
  if decide (1 ≤ ds.length) && decide (ds.length ≤ 4) && bdry then some ⟨ds⟩
  else none

/-- Rank classifier (source lines 96–102): first match of `rankMatch`
among the first three cell texts. -/
def rank_classifier (tds : List String) : String :=
  match (tds.take 3).findSome? rankMatch with
  | some r => r
  | none => ""

/-- Tail of the pattern `-?\d+(\.\d+)?%` after the maximal digit run:
either `%` directly, or `.`, a digit run, then `%`.  (The quantifiers are
forced to maximal munch because neither `.` nor `%` is a digit.) -/
def pctTail : List Char → Bool
  | '%' :: _ => true
  | '.' :: c :: rest =>
      c.isDigit &&
        (match (c :: rest).dropWhile Char.isDigit with
         | '%' :: _ => true
         | _ => false)
  | _ => false

/-- Pattern `-?\d+(\.\d+)?%` anchored at the head of the character list. -/
def pctDigits (l : List Char) : Bool :=
  match l with
  | c :: _ => c.isDigit && pctTail (l.dropWhile Char.isDigit)
  | [] => false

/-- One anchored attempt of `-?\d+(\.\d+)?%` (the leading `-` is optional,
but if dropped the next character must itself start a digit run). -/
def pctFrom : List Char → Bool
  | '-' :: rest => pctDigits rest
  | l => pctDigits l

/-- Model of `re.search(r"-?\d+(\.\d+)?%", t)` (source line 168): the pattern
matches at some position of `t`. -/
def reSearchPct (s : String) : Bool := s.data.tails.any pctFrom

/-- Change classifier (source lines 166–170): the first cell text that
contains `%` and matches `-?\d+(\.\d+)?%` somewhere. -/
def change_classifier (tds : List String) : String :=
  match tds.find? (fun t => t.data.contains '%' && reSearchPct t) with
  | some t => t
  | none => ""

/-- Stable descending insertion by string length: `x` goes before the
first element strictly shorter than it, hence after every earlier element
of equal length. -/
def insertDesc (x : String) : List String → List String
  | [] => [x]
  | y :: ys => if y.length < x.length then x :: y :: ys else y :: insertDesc x ys

/-- Python's `list.sort(key=lambda s: len(s), reverse=True)` (source
lines 177 and 185): a stable sort by descending length. -/
def sortLenDesc (l : List String) : List String :=
  l.foldl (fun acc x => insertDesc x acc) []

/-- Market-cap classifier (source lines 172–178): among cell texts
containing `$` with length > 6, the head of the stable descending sort
(the longest, ties broken by first occurrence); `""` if there are none. -/
def market_cap_classifier (tds : List String) : String :=
  let candidates := tds.filter (fun t => t.data.contains '$' && decide (6 < t.length))
  match sortLenDesc candidates with
  | c :: _ => c
  | [] => ""

/-- Volume classifier (source lines 180–190): all cell texts containing
`$` (no length filter), sorted descending by length; the second element
if at least two exist, else `""`. -/
def volume_classifier (tds : List String) : String :=
  let dollar_values := tds.filter (fun t => t.data.contains '$')
  match sortLenDesc dollar_values with
  | _ :: v :: _ => v
  | _ => ""

/-- Price classifier, fragment path (source lines 149–155): the first
cell text containing `$` with length < 20. -/
def price_classifier (tds : List String) : String :=
  match tds.find? (fun t => t.data.contains '$' && decide (t.length < 20)) with
  | some t => t
  | none => ""

/-- One anchored attempt of `\d[\d,\.]*\s*[A-Za-z]{1,6}`: a digit, a run
of digits/commas/dots, optional whitespace, then a letter.  (Maximal
munch is forced: letters and whitespace are outside the bracket class.) -/
def supplyFrom : List Char → Bool
  | c :: rest =>
      c.isDigit &&
        (match (rest.dropWhile fun d => d.isDigit || d == ',' || d == '.').dropWhile isSpace with
         | e :: _ => e.isAlpha
         | [] => false)
  | [] => false

/-- Model of `re.search(r"\d[\d,\.]*\s*[A-Za-z]{1,6}", t)` (source line 195). -/
def supplySearch (s : String) : Bool := s.data.tails.any supplyFrom

/-- Python substring test `pat in s`. -/
def hasSub (pat s : String) : Bool := s.data.tails.any (fun suf => pat.data.isPrefixOf suf)

/-- Circulating-supply classifier (source lines 192–199): the first
non-empty cell text matching the supply pattern that contains neither the
label `Market Cap` nor a `$`. -/
def circulating_supply_classifier (tds : List String) : String :=
  match tds.find? (fun t =>
      t != "" && supplySearch t && !hasSub "Market Cap" t && !t.data.contains '$') with
  | some t => t
  | none => ""

/-- The mutable pair `data["name"]`, `data["symbol"]` during extraction. -/
structure NS where
  name : String
  symbol : String
deriving DecidableEq, Repr

/-- Python `str.isupper()` over ASCII cased characters: at least one
letter, and no lowercase letter. -/
def pyIsUpper (s : String) : Bool :=
  s.data.any Char.isAlpha && s.data.all (fun c => !c.isLower)

/-- Number of whitespace-separated words, `len(p.split())`; the flag says
whether the previous character was inside a word. -/
def wordCount : Bool → List Char → Nat
  | _, [] => 0
  | inw, c :: rest =>
      if isSpace c then wordCount false rest
      else (if inw then 0 else 1) + wordCount true rest

def pyWordCount (s : String) : Nat := wordCount false s.data

/-- Python `p.strip()` on a string value. -/
def pyStrip (s : String) : String := ⟨stripChars s.data⟩

/-- Model of `re.match(r"^(.+?)\s+([A-Z]{2,6})$", p)` (source line 138): the lazy
group 1 is the shortest non-empty prefix that is followed by at least one
whitespace character and then 2–6 uppercase letters running to the end of
the string.  `aRev` holds the prefix consumed so far, reversed. -/
def nameSymGo (aRev : List Char) : List Char → Option (String × String)
  | [] => none
  | c :: rest =>
      let caps := rest.dropWhile isSpace
      if decide (1 ≤ (rest.takeWhile isSpace).length) && caps.all Char.isUpper &&
          decide (2 ≤ caps.length) && decide (caps.length ≤ 6) then
        some (⟨(c :: aRev).reverse⟩, ⟨caps⟩)
      else nameSymGo (c :: aRev) rest

def nameSymMatch (p : String) : Option (String × String) := nameSymGo [] p.data

/-- One token `p0` of the fallback loop body (source lines 134–147).
Returns the updated name/symbol state and whether the Python `break`
fired.  Assignments use Python `or` semantics: an already non-empty field
keeps its value. -/
def tokenStep (ns : NS) (p0 : String) : NS × Bool :=
  let p := pyStrip p0
  if decide (1 < p.length) && !likely_money p && !likely_percent p then
    match nameSymMatch p with
    | some (a, b) =>
        (⟨if ns.name != "" then ns.name else pyStrip a,
          if ns.symbol != "" then ns.symbol else pyStrip b⟩, true)
    | none =>
        if pyIsUpper p && decide (2 ≤ p.length) && decide (p.length ≤ 6) then
          (⟨ns.name, if ns.symbol != "" then ns.symbol else p⟩, false)
        else if decide (pyWordCount p ≤ 3) && ns.name == "" then
          (⟨p, ns.symbol⟩, false)
        else (ns, false)
  else (ns, false)

/-- The inner `for p in parts` loop with its `break`. -/
def partsLoop : NS → List String → NS
  | ns, [] => ns
  | ns, p :: ps =>
      let r := tokenStep ns p
      if r.2 then r.1 else partsLoop r.1 ps

/-- Length of the leftmost separator match of
`re.split(r"\s{2,}|\s?\n\s?|\s•\s", t)` anchored at the head (0 = no
separator here).  Since `\n` is itself whitespace, the first alternative
greedily takes any whitespace run of length ≥ 2; the second fires only on
an isolated newline; the third only on whitespace-bullet-whitespace. -/
def sepLen (l : List Char) : Nat :=
  let run := (l.takeWhile isSpace).length
  if 2 ≤ run then run
  else
    match l with
    | '\n' :: _ => 1
    | c :: '•' :: d :: _ => if isSpace c && isSpace d then 3 else 0
    | _ => 0

/-- The splitting loop of `re.split`.  The fuel argument starts at the
length of the text; every step consumes at least one character, so the
fuel-exhaustion arm is never reached and only makes the recursion
structural. -/
def splitGo : Nat → List Char → List Char → List (List Char)
  | _, acc, [] => [acc.reverse]
  | 0, acc, l => [acc.reverse ++ l]
  | fuel + 1, acc, c :: rest =>
      let k := sepLen (c :: rest)
      if k = 0 then splitGo fuel (c :: acc) rest
      else acc.reverse :: splitGo fuel [] (rest.drop (k - 1))

/-- Model of `re.split(r"\s{2,}|\s?\n\s?|\s•\s", t)` (source line 132). -/
def pySplitSep (t : String) : List String :=
  (splitGo t.data.length [] t.data).map (fun l => ⟨l⟩)

/-- The name/symbol fallback over all cell texts (source lines 126–147):
for each text containing a letter, split it into parts and run the token
loop; fields already set are never overwritten. -/
def nameSymFallback (ns0 : NS) (tds : List String) : NS :=
  tds.foldl
    (fun ns t =>
      if t != "" && t.data.any Char.isAlpha then partsLoop ns (pySplitSep t)
      else ns)
    ns0

/-- Structured sub-element hints for name and symbol (source lines
107–124).  The outer `none` models a missing element or a raised locator
call (absorbed by the `except`); the inner option is the raw
`text_content`, which may itself be `None`. -/
structure Hints where
  nameTxt : Option (Option String)
  symTxt : Option (Option String)
deriving DecidableEq, Repr

/-- Everything the provider delivers for one table row.  `cells = none`
models `row.locator("td").count()` raising, which resets `tds` to `[]`. -/
structure RowInput where
  cells : Option (List (Option String))
  hints : Hints
  priceHint : Option (Option String)
deriving DecidableEq, Repr

/-- The extracted record: exactly the eight output fields, every one a
string, `""` meaning unresolved. -/
structure Record where
  rank : String
  name : String
  symbol : String
  price : String
  change_24h : String
  market_cap : String
  volume_24h : String
  circulating_supply : String
deriving DecidableEq, Repr

/-- The normalized cell texts (source lines 86–93): each cell's
`safe_text`, cleaned once more on append. -/
def tdsOf (ri : RowInput) : List String :=
  match ri.cells with
  | none => []
  | some cs => cs.map (fun c => clean_text (some (safe_text c)))

/-- Name from the structured hint (source lines 109–114): the cleaned
text if the locator resolved, assigned only when non-empty — which
coincides with the cleaned text itself, the field starting out empty. -/
def nameFromHint : Option (Option String) → String
  | none => ""
  | some txt => clean_text txt

/-- Symbol from the structured hint (source lines 116–122): cleaned text
with parentheses removed, accepted only at length 2–10. -/
def symbolFromHint : Option (Option String) → String
  | none => ""
  | some txt =>
      let sym : String := ⟨(clean_text txt).data.filter (fun c => !(c == '(' || c == ')'))⟩
      if decide (1 < sym.length) && decide (sym.length ≤ 10) then sym else ""

/-- Function `extract_from_row` (source lines 69–207): run every classifier over
the normalized cell texts and the hints, then re-clean every field.  A
total function: every provider failure mode is an explicit `none`/empty
input, as in the source where every failure is caught and absorbed. -/
def extract_from_row (ri : RowInput) : Record :=
  let tds := tdsOf ri
  let rank := rank_classifier tds
  let name0 := nameFromHint ri.hints.nameTxt
  let symbol0 := symbolFromHint ri.hints.symTxt
  let ns :=
    if name0 == "" || symbol0 == "" then nameSymFallback ⟨name0, symbol0⟩ tds
    else ⟨name0, symbol0⟩
  let price0 := price_classifier tds
  let price :=
    if price0 == "" then
      match ri.priceHint with
      | none => price0
      | some txt => clean_text txt
    else price0
  { rank := clean_text (some rank)
    name := clean_text (some ns.name)
    symbol := clean_text (some ns.symbol)
    price := clean_text (some price)
    change_24h := clean_text (some (change_classifier tds))
    market_cap := clean_text (some (market_cap_classifier tds))
    volume_24h := clean_text (some (volume_classifier tds))
    circulating_supply := clean_text (some (circulating_supply_classifier tds)) }

/-- Safety bound on page navigations (source line 33). -/
def MAX_PAGE_NAVIGATIONS : Nat := 5

/-- Default target count (source line 27). -/
def TARGET_COUNT : Nat := 20

/-- What the provider presents for one scanned page.  A row is `none`
when processing it raised (caught at source lines 271–273, `continue`).
`next_ok` is `count > 0 and is_enabled()` for the Next control;
`pag_fail` means the pagination attempt raised, and `fail_clicked`
whether the click had already happened when it raised. -/
structure PageView where
  rows : List (Option RowInput)
  next_ok : Bool
  pag_fail : Bool
  fail_clicked : Bool
deriving Repr

/-- The acceptance gate (source lines 260–261): skip a record with all of
name, price and rank empty. -/
def gateOk (d : Record) : Bool := !(d.name == "" && d.price == "" && d.rank == "")

/-- Dedup check on rank (source lines 264–265). -/
def dupRank (res : List Record) (d : Record) : Bool :=
  d.rank != "" && res.any (fun r => r.rank == d.rank)

/-- Dedup check on name (source lines 266–267). -/
def dupName (res : List Record) (d : Record) : Bool :=
  d.name != "" && res.any (fun r => r.name == d.name)

/-- The per-page row scan (source lines 247–273): stop as soon as the
target is reached, skip failed rows, gate, dedup, append. -/
def scanRows (target : Nat) : List Record → List (Option RowInput) → List Record
  | res, [] => res
  | res, ro :: rest =>
      if target ≤ res.length then res
      else
        match ro with
        | none => scanRows target res rest
        | some ri =>
            let d := extract_from_row ri
            if !gateOk d then scanRows target res rest
            else if dupRank res d then scanRows target res rest
            else if dupName res d then scanRows target res rest
            else scanRows target (res ++ [d]) rest

/-- The `while` loop of `scrape_top_n` (source lines 234–291).  The fuel
is `MAX_PAGE_NAVIGATIONS - navigations`, so `0 < fuel` is exactly the
condition `navigations < MAX_PAGE_NAVIGATIONS` and the recursion is
structural.  The second component counts successful Next clicks (page
transitions); `pages clicks` is the page currently displayed. -/
def loopGo (pages : Nat → PageView) (target : Nat) :
    Nat → List Record → Nat → List Record × Nat
  | 0, res, clicks => (res, clicks)
  | fuel + 1, res, clicks =>
      if target ≤ res.length then (res, clicks)
      else
        let pv := pages clicks
        let res' := scanRows target res pv.rows
        if res'.length < target then
          if pv.pag_fail then
            (res', clicks + (if pv.next_ok && pv.fail_clicked then 1 else 0))
          else if pv.next_ok then loopGo pages target fuel res' (clicks + 1)
          else (res', clicks)
        else (res', clicks)

/-- Function `scrape_top_n` (source lines 212–296): empty on a fatal initial page
load, otherwise the loop result truncated to the target count.  (A mere
timeout at source line 224 is only a warning and proceeds.) -/
def scrape_top_n (pages : Nat → PageView) (init_fail : Bool) (target : Nat) : List Record :=
  if init_fail then [] else ((loopGo pages target MAX_PAGE_NAVIGATIONS [] 0).1).take target

/-- The deduplication invariant of the ResultSet: whenever two records
(in accumulation order) share a rank value, that value is empty, and
likewise for names. -/
def NoDupInv (rs : List Record) : Prop :=
  rs.Pairwise (fun a b => (a.rank = b.rank → a.rank = "") ∧ (a.name = b.name → a.name = ""))

/-- A provider behaviour whose every page has zero rows but an enabled
Next control and failure-free pagination. -/
def pagesEmptyWithNext : Nat → PageView := fun _ => ⟨[], true, false, false⟩

/-- A concrete row whose first (and only) cell is the text `1`, so that
extraction yields rank `1` and every other field empty. -/
def riRank1 : RowInput := ⟨some [some "1"], ⟨none, none⟩, none⟩

/-- A provider behaviour presenting a single page with the single row
`riRank1` and no Next control. -/
def pagesOneRow : Nat → PageView := fun _ => ⟨[some riRank1], false, false, false⟩

/-! ### Facts about the text normaliser -/

/-- Invariant of squeezed text: every whitespace character is a plain
space, and no two adjacent characters are both whitespace. -/
def Sparse (l : List Char) : Prop :=
  (∀ c ∈ l, isSpace c = true → c = ' ') ∧
    l.Chain' (fun a b => ¬(isSpace a = true ∧ isSpace b = true))

theorem squeeze_sparse (l : List Char) : ∀ b : Bool,
    Sparse (squeeze b l) ∧ (b = true → ∀ c ∈ (squeeze b l).head?, isSpace c = false) := by
  induction l with
  | nil =>
    intro b
    have h0 : squeeze b [] = [] := by cases b <;> rfl
    rw [h0]
    exact ⟨⟨by simp, by simp⟩, by simp⟩
  | cons c cs ih =>
    intro b
    by_cases hc : isSpace c
    · cases b with
      | true =>
        simp only [squeeze, hc, if_true]
        exact ⟨(ih true).1, fun _ => (ih true).2 rfl⟩
      | false =>
        simp only [squeeze, hc, if_true, Bool.false_eq_true, if_false]
        refine ⟨⟨?_, ?_⟩, by simp⟩
        · intro x hx hxs
          rcases List.mem_cons.mp hx with h | h
          · exact h
          · exact (ih true).1.1 x h hxs
        · rw [List.chain'_cons']
          refine ⟨?_, (ih true).1.2⟩
          intro y hy hcon
          have := (ih true).2 rfl y hy
          rw [this] at hcon
          exact Bool.false_ne_true hcon.2
    · have hc' : isSpace c = false := eq_false_of_ne_true hc
      simp only [squeeze, hc', Bool.false_eq_true, if_false]
      refine ⟨⟨?_, ?_⟩, ?_⟩
      · intro x hx hxs
        rcases List.mem_cons.mp hx with h | h
        · rw [h] at hxs; exact absurd hxs hc
        · exact (ih false).1.1 x h hxs
      · rw [List.chain'_cons']
        refine ⟨?_, (ih false).1.2⟩
        intro y _ hcon
        rw [hc'] at hcon
        exact Bool.false_ne_true hcon.1
      · intro _ x hx
        rw [List.head?_cons, Option.mem_some_iff] at hx
        rw [← hx]; exact hc'

theorem squeeze_eq_of_sparse (l : List Char) : ∀ b : Bool, Sparse l →
    (b = true → ∀ c ∈ l.head?, isSpace c = false) → squeeze b l = l := by
  induction l with
  | nil => intro b _ _; rfl
  | cons c cs ih =>
    intro b hs hb
    have hs' : Sparse cs :=
      ⟨fun x hx => hs.1 x (List.mem_cons_of_mem _ hx), (List.chain'_cons'.mp hs.2).2⟩
    by_cases hc : isSpace c
    · have hcEq : c = ' ' := hs.1 c (List.mem_cons_self _ _) hc
      cases b with
      | true =>
        have := hb rfl c (by rw [List.head?_cons]; rfl)
        rw [this] at hc; exact absurd hc (by simp)
      | false =>
        have hhead : ∀ d ∈ cs.head?, isSpace d = false := by
          intro d hd
          have hnd := (List.chain'_cons'.mp hs.2).1 d hd
          by_contra h
          exact hnd ⟨hc, by simpa using h⟩
        have hsq : squeeze false (c :: cs) = ' ' :: squeeze true cs := by
          simp [squeeze, hc]
        rw [hsq, ih true hs' (fun _ => hhead), hcEq]
    · have hc' : isSpace c = false := eq_false_of_ne_true hc
      simp [squeeze, hc', ih false hs' (by simp)]

theorem sparse_dropWhile (l : List Char) (hs : Sparse l) : Sparse (l.dropWhile isSpace) := by
  constructor
  · intro x hx
    exact hs.1 x ((List.dropWhile_suffix isSpace).subset hx)
  · obtain ⟨t, ht⟩ := List.dropWhile_suffix (l := l) isSpace
    have h2 := hs.2
    rw [← ht] at h2
    exact (List.chain'_append.mp h2).2.1

theorem sparse_reverse (l : List Char) (hs : Sparse l) : Sparse l.reverse := by
  constructor
  · intro x hx; exact hs.1 x (List.mem_reverse.mp hx)
  · rw [List.chain'_reverse]
    exact hs.2.imp (fun {a b} h => fun hcon => h ⟨hcon.2, hcon.1⟩)

theorem dropWhile_head_not (p : Char → Bool) (l : List Char) :
    ∀ c ∈ (l.dropWhile p).head?, p c = false := by
  induction l with
  | nil => simp [List.dropWhile]
  | cons a as ih =>
    intro c hc
    rw [List.dropWhile_cons] at hc
    by_cases hp : p a
    · simp only [hp, if_true] at hc; exact ih c hc
    · simp only [hp, Bool.false_eq_true, if_false, List.head?_cons, Option.mem_some_iff] at hc
      rw [← hc]; exact eq_false_of_ne_true hp

theorem dropWhile_getLast (p : Char → Bool) (l : List Char) (h : l.dropWhile p ≠ []) :
    (l.dropWhile p).getLast? = l.getLast? := by
  obtain ⟨t, ht⟩ := List.dropWhile_suffix (l := l) p
  conv_rhs => rw [← ht]
  exact (List.getLast?_append_of_ne_nil t h).symm

theorem stripChars_head (l : List Char) : ∀ c ∈ (stripChars l).head?, isSpace c = false := by
  intro c hc
  unfold stripChars at hc
  rw [List.head?_reverse] at hc
  by_cases hne : ((l.dropWhile isSpace).reverse.dropWhile isSpace) = []
  · rw [hne] at hc; simp at hc
  · rw [dropWhile_getLast _ _ hne, List.getLast?_reverse] at hc
    exact dropWhile_head_not isSpace l c hc

theorem stripChars_last (l : List Char) : ∀ c ∈ (stripChars l).getLast?, isSpace c = false := by
  intro c hc
  unfold stripChars at hc
  rw [List.getLast?_reverse] at hc
  exact dropWhile_head_not isSpace _ c hc

theorem sparse_stripChars (l : List Char) (hs : Sparse l) : Sparse (stripChars l) :=
  sparse_reverse _ (sparse_dropWhile _ (sparse_reverse _ (sparse_dropWhile _ hs)))

theorem dropWhile_eq_self_of_head (p : Char → Bool) (l : List Char)
    (h : ∀ c ∈ l.head?, p c = false) : l.dropWhile p = l := by
  cases l with
  | nil => rfl
  | cons c cs =>
    rw [List.dropWhile_cons]
    have := h c (by rw [List.head?_cons]; rfl)
    simp [this]

theorem stripChars_eq_self (l : List Char)
    (h1 : ∀ c ∈ l.head?, isSpace c = false)
    (h2 : ∀ c ∈ l.getLast?, isSpace c = false) : stripChars l = l := by
  unfold stripChars
  rw [dropWhile_eq_self_of_head _ _ h1]
  rw [dropWhile_eq_self_of_head _ _ (by simpa [List.head?_reverse] using h2)]
  exact List.reverse_reverse l

theorem clean_text_core_idem (l : List Char) :
    stripChars (squeeze false (stripChars (squeeze false l))) = stripChars (squeeze false l) := by
  have hsp : Sparse (stripChars (squeeze false l)) :=
    sparse_stripChars _ ((squeeze_sparse l false).1)
  rw [squeeze_eq_of_sparse _ false hsp (by simp)]
  exact stripChars_eq_self _ (stripChars_head _) (stripChars_last _)

/-- Normalisation `clean_text` is idempotent: its output is already normalized. -/
theorem clean_text_idem (s : Option String) :
    clean_text (some (clean_text s)) = clean_text s := by
  cases s with
  | none => rfl
  | some s =>
    show (⟨stripChars (squeeze false (stripChars (squeeze false s.data)))⟩ : String)
        = ⟨stripChars (squeeze false s.data)⟩
    rw [clean_text_core_idem]

/-! ### Facts about the row extractor -/

/-- Every field of an extracted record is, syntactically, a `clean_text`
image (the final cleanup loop at source lines 205–206). -/
theorem extract_from_row_eq (ri : RowInput) : ∃ r n sy p ch mc v cs,
    extract_from_row ri =
      { rank := clean_text (some r), name := clean_text (some n),
        symbol := clean_text (some sy), price := clean_text (some p),
        change_24h := clean_text (some ch), market_cap := clean_text (some mc),
        volume_24h := clean_text (some v), circulating_supply := clean_text (some cs) } :=
  ⟨_, _, _, _, _, _, _, _, rfl⟩

/-- C1: for every row input, including malformed, empty, or error-raising
inputs, extraction never raises (it is a total function of the explicit
failure-modelling inputs) and returns a record with exactly the eight
fields of `Record`, each a possibly empty normalized string (a fixed
point of `clean_text`); when every provider call fails, every field is
absorbed as empty. -/
theorem C1_extraction_total_normalized (ri : RowInput) :
    (clean_text (some (extract_from_row ri).rank) = (extract_from_row ri).rank
      ∧ clean_text (some (extract_from_row ri).name) = (extract_from_row ri).name
      ∧ clean_text (some (extract_from_row ri).symbol) = (extract_from_row ri).symbol
      ∧ clean_text (some (extract_from_row ri).price) = (extract_from_row ri).price
      ∧ clean_text (some (extract_from_row ri).change_24h) = (extract_from_row ri).change_24h
      ∧ clean_text (some (extract_from_row ri).market_cap) = (extract_from_row ri).market_cap
      ∧ clean_text (some (extract_from_row ri).volume_24h) = (extract_from_row ri).volume_24h
      ∧ clean_text (some (extract_from_row ri).circulating_supply)
          = (extract_from_row ri).circulating_supply)
    ∧ extract_from_row ⟨none, ⟨none, none⟩, none⟩ = ⟨"", "", "", "", "", "", "", ""⟩ := by
  constructor
  · obtain ⟨r, n, sy, p, ch, mc, v, cs, he⟩ := extract_from_row_eq ri
    rw [he]
    exact ⟨clean_text_idem _, clean_text_idem _, clean_text_idem _, clean_text_idem _,
      clean_text_idem _, clean_text_idem _, clean_text_idem _, clean_text_idem _⟩
  · rfl


/-! ### Facts about the collection loop -/

/-- Once the target is reached, the row scan does nothing more (the
`break` at source lines 248–249). -/
theorem scanRows_stop (target : Nat) (res : List Record) (rows : List (Option RowInput))
    (h : target ≤ res.length) : scanRows target res rows = res := by
  cases rows with
  | nil => rfl
  | cons ro rest => cases ro <;> (rw [scanRows]; simp [h])

/-- Rows presented after the target has been reached never change the
result: scanning stops as soon as the target count is reached. -/
theorem scanRows_early_stop (target : Nat) :
    ∀ (res : List Record) (rows extra : List (Option RowInput)),
      target ≤ (scanRows target res rows).length →
      scanRows target res (rows ++ extra) = scanRows target res rows := by
  intro res rows
  induction rows generalizing res with
  | nil =>
    intro extra h
    exact scanRows_stop target res extra h
  | cons ro rest ih =>
    intro extra h
    by_cases hst : target ≤ res.length
    · rw [scanRows_stop target res _ hst, scanRows_stop target res _ hst]
    · cases ro with
      | none =>
        rw [List.cons_append, scanRows, if_neg hst]
        rw [scanRows, if_neg hst] at h ⊢
        exact ih res extra h
      | some ri =>
        rw [List.cons_append, scanRows, if_neg hst]
        rw [scanRows, if_neg hst] at h ⊢
        by_cases hg : !gateOk (extract_from_row ri)
        · simp only [hg, if_true] at h ⊢; exact ih res extra h
        · simp only [hg, Bool.false_eq_true, if_false] at h ⊢
          by_cases hr : dupRank res (extract_from_row ri)
          · simp only [hr, if_true] at h ⊢; exact ih res extra h
          · simp only [hr, Bool.false_eq_true, if_false] at h ⊢
            by_cases hn : dupName res (extract_from_row ri)
            · simp only [hn, if_true] at h ⊢; exact ih res extra h
            · simp only [hn, Bool.false_eq_true, if_false] at h ⊢
              exact ih _ extra h

/-- The loop clicks Next at most `fuel` more times. -/
theorem loopGo_clicks_le (pages : Nat → PageView) (target : Nat) :
    ∀ (fuel : Nat) (res : List Record) (clicks : Nat),
      (loopGo pages target fuel res clicks).2 ≤ clicks + fuel := by
  intro fuel
  induction fuel with
  | zero =>
    intro res clicks
    exact Nat.le_add_right _ _
  | succ f ih =>
    intro res clicks
    rw [loopGo]
    by_cases h1 : target ≤ res.length
    · rw [if_pos h1]; exact Nat.le_add_right _ _
    · rw [if_neg h1]
      simp only
      by_cases h2 : (scanRows target res (pages clicks).rows).length < target
      · rw [if_pos h2]
        by_cases h3 : (pages clicks).pag_fail
        · rw [if_pos h3]
          by_cases h4 : (pages clicks).next_ok && (pages clicks).fail_clicked
          · rw [if_pos h4]; omega
          · rw [if_neg h4]; omega
        · rw [if_neg h3]
          by_cases h4 : (pages clicks).next_ok
          · rw [if_pos h4]
            have := ih (scanRows target res (pages clicks).rows) (clicks + 1)
            omega
          · rw [if_neg h4]; omega
      · rw [if_neg h2]; omega

/-- A membership-style invariant is preserved by the row scan: every
record of the output is either an old record or passes the supplied
predicate test on freshly appended records. -/
theorem scanRows_invariant (P : Record → Prop) (target : Nat)
    (hnew : ∀ ri : RowInput,
      gateOk (extract_from_row ri) = true → P (extract_from_row ri)) :
    ∀ (res : List Record) (rows : List (Option RowInput)),
      (∀ r ∈ res, P r) → ∀ r ∈ scanRows target res rows, P r := by
  intro res rows
  induction rows generalizing res with
  | nil => intro hres; exact hres
  | cons ro rest ih =>
    intro hres
    by_cases hst : target ≤ res.length
    · rw [scanRows_stop target res _ hst]; exact hres
    · cases ro with
      | none =>
        rw [scanRows, if_neg hst]
        exact ih res hres
      | some ri =>
        rw [scanRows, if_neg hst]
        simp only
        by_cases hg : !gateOk (extract_from_row ri)
        · rw [if_pos hg]; exact ih res hres
        · rw [if_neg hg]
          by_cases hr : dupRank res (extract_from_row ri)
          · rw [if_pos hr]; exact ih res hres
          · rw [if_neg hr]
            by_cases hn : dupName res (extract_from_row ri)
            · rw [if_pos hn]; exact ih res hres
            · rw [if_neg hn]
              refine ih _ ?_
              intro r hrm
              rcases List.mem_append.mp hrm with h | h
              · exact hres r h
              · rw [List.mem_singleton] at h
                subst h
                exact hnew ri (by simpa using hg)

/-- Appending a record that passed both dedup checks preserves the
deduplication invariant. -/
theorem noDupInv_append (res : List Record) (d : Record) (h : NoDupInv res)
    (hr : dupRank res d = false) (hn : dupName res d = false) : NoDupInv (res ++ [d]) := by
  have hr' : ¬d.rank = "" → ∀ x ∈ res, ¬x.rank = d.rank := by simpa [dupRank] using hr
  have hn' : ¬d.name = "" → ∀ x ∈ res, ¬x.name = d.name := by simpa [dupName] using hn
  rw [NoDupInv, List.pairwise_append]
  refine ⟨h, List.pairwise_singleton _ _, ?_⟩
  intro a ha b hb
  rw [List.mem_singleton] at hb
  rw [hb]
  constructor
  · intro heq
    by_cases hd : d.rank = ""
    · rw [heq, hd]
    · exact absurd heq (hr' hd a ha)
  · intro heq
    by_cases hd : d.name = ""
    · rw [heq, hd]
    · exact absurd heq (hn' hd a ha)

/-- The row scan preserves the deduplication invariant. -/
theorem scanRows_noDup (target : Nat) :
    ∀ (res : List Record) (rows : List (Option RowInput)),
      NoDupInv res → NoDupInv (scanRows target res rows) := by
  intro res rows
  induction rows generalizing res with
  | nil => intro h; exact h
  | cons ro rest ih =>
    intro h
    by_cases hst : target ≤ res.length
    · rw [scanRows_stop target res _ hst]; exact h
    · cases ro with
      | none => rw [scanRows, if_neg hst]; exact ih res h
      | some ri =>
        rw [scanRows, if_neg hst]
        simp only
        by_cases hg : !gateOk (extract_from_row ri)
        · rw [if_pos hg]; exact ih res h
        · rw [if_neg hg]
          by_cases hr : dupRank res (extract_from_row ri)
          · rw [if_pos hr]; exact ih res h
          · rw [if_neg hr]
            by_cases hn : dupName res (extract_from_row ri)
            · rw [if_pos hn]; exact ih res h
            · rw [if_neg hn]
              exact ih _ (noDupInv_append res _ h
                (by simpa using hr) (by simpa using hn))

/-- The loop preserves the deduplication invariant. -/
theorem loopGo_noDup (pages : Nat → PageView) (target : Nat) :
    ∀ (fuel : Nat) (res : List Record) (clicks : Nat),
      NoDupInv res → NoDupInv (loopGo pages target fuel res clicks).1 := by
  intro fuel
  induction fuel with
  | zero => intro res clicks h; exact h
  | succ f ih =>
    intro res clicks h
    rw [loopGo]
    by_cases h1 : target ≤ res.length
    · rw [if_pos h1]; exact h
    · rw [if_neg h1]
      simp only
      have hscan := scanRows_noDup target res (pages clicks).rows h
      by_cases h2 : (scanRows target res (pages clicks).rows).length < target
      · rw [if_pos h2]
        by_cases h3 : (pages clicks).pag_fail
        · rw [if_pos h3]; exact hscan
        · rw [if_neg h3]
          by_cases h4 : (pages clicks).next_ok
          · rw [if_pos h4]; exact ih _ _ hscan
          · rw [if_neg h4]; exact hscan
      · rw [if_neg h2]; exact hscan

/-- The loop preserves a per-record invariant that holds of every freshly
gated record. -/
theorem loopGo_invariant (P : Record → Prop) (pages : Nat → PageView) (target : Nat)
    (hnew : ∀ ri : RowInput,
      gateOk (extract_from_row ri) = true → P (extract_from_row ri)) :
    ∀ (fuel : Nat) (res : List Record) (clicks : Nat),
      (∀ r ∈ res, P r) → ∀ r ∈ (loopGo pages target fuel res clicks).1, P r := by
  intro fuel
  induction fuel with
  | zero => intro res clicks h; exact h
  | succ f ih =>
    intro res clicks h
    rw [loopGo]
    by_cases h1 : target ≤ res.length
    · rw [if_pos h1]; exact h
    · rw [if_neg h1]
      simp only
      have hscan := scanRows_invariant P target hnew res (pages clicks).rows h
      by_cases h2 : (scanRows target res (pages clicks).rows).length < target
      · rw [if_pos h2]
        by_cases h3 : (pages clicks).pag_fail
        · rw [if_pos h3]; exact hscan
        · rw [if_neg h3]
          by_cases h4 : (pages clicks).next_ok
          · rw [if_pos h4]; exact ih _ _ hscan
          · rw [if_neg h4]; exact hscan
      · rw [if_neg h2]; exact hscan

/-! ### Claims about the collection loop -/

/-- C2: for every provider behaviour the collection loop terminates (it is
a total function of the behaviour), returns at most `target` records,
performs at most `MAX_PAGE_NAVIGATIONS` page transitions, stops scanning
a page as soon as the target count is reached (rows presented after that
point change nothing), and the final output is the accumulated result
list truncated to at most the target count, in accumulation order. -/
theorem C2_loop_bounds (pages : Nat → PageView) (init_fail : Bool) (target : Nat) :
    (scrape_top_n pages init_fail target).length ≤ target
    ∧ (loopGo pages target MAX_PAGE_NAVIGATIONS [] 0).2 ≤ MAX_PAGE_NAVIGATIONS
    ∧ (init_fail = false →
        scrape_top_n pages init_fail target
          = ((loopGo pages target MAX_PAGE_NAVIGATIONS [] 0).1).take target)
    ∧ (∀ (res : List Record) (rows extra : List (Option RowInput)),
        target ≤ (scanRows target res rows).length →
        scanRows target res (rows ++ extra) = scanRows target res rows) := by
  refine ⟨?_, ?_, ?_, ?_⟩
  · rw [scrape_top_n]
    by_cases h : init_fail
    · rw [if_pos h]; simp
    · rw [if_neg h]
      exact List.length_take_le target _
  · simpa using loopGo_clicks_le pages target MAX_PAGE_NAVIGATIONS [] 0
  · intro h
    rw [scrape_top_n, h]
    simp
  · exact fun res rows extra h => scanRows_early_stop target res rows extra h

theorem C2_loop_bounds_witness :
    scrape_top_n pagesOneRow false 2
        = ((loopGo pagesOneRow 2 MAX_PAGE_NAVIGATIONS [] 0).1).take 2
    ∧ scanRows 0 [] ([some riRank1] ++ [some riRank1])
        = scanRows 0 [] [some riRank1] :=
  ⟨(C2_loop_bounds pagesOneRow false 2).2.2.1 rfl,
   (C2_loop_bounds pagesOneRow false 0).2.2.2 [] [some riRank1] [some riRank1]
     (Nat.zero_le _)⟩

/-- C3 counterexample: with every page reporting zero rows but exposing
an enabled Next control, the loop does not transition to DONE after the
first empty page: it performs five page transitions (stopping only at
the navigation safety bound), refuting "terminates on the first empty
page rather than attempting further pagination". -/
theorem C3_counterexample :
    (pagesEmptyWithNext 0).rows = []
    ∧ (loopGo pagesEmptyWithNext 1 MAX_PAGE_NAVIGATIONS [] 0).2 = 5
    ∧ scrape_top_n pagesEmptyWithNext false 1 = [] :=
  ⟨rfl, by decide, by decide⟩

/-- C3 (amended): when the provider reports zero rows for the current
page, the loop returns exactly the records collected so far provided no
enabled Next control is available or the pagination attempt fails; when
an enabled, failure-free Next control is present and the target is not
yet reached, the loop paginates instead (consuming one navigation), so
termination on an empty page is guaranteed only by the absence of a Next
control or by the navigation bound. -/
theorem C3_empty_page_behaviour (pages : Nat → PageView) (target fuel clicks : Nat)
    (res : List Record) :
    ((pages clicks).rows = [] →
      ((pages clicks).next_ok = false ∨ (pages clicks).pag_fail = true) →
      (loopGo pages target fuel res clicks).1 = res)
    ∧ ((pages clicks).rows = [] → (pages clicks).pag_fail = false →
        (pages clicks).next_ok = true → res.length < target → 0 < fuel →
        loopGo pages target fuel res clicks
          = loopGo pages target (fuel - 1) res (clicks + 1)) := by
  constructor
  · intro hrows hnp
    cases fuel with
    | zero => rfl
    | succ f =>
      rw [loopGo]
      by_cases h1 : target ≤ res.length
      · rw [if_pos h1]
      · rw [if_neg h1]
        simp only [hrows]
        have hs : scanRows target res [] = res := rfl
        rw [hs, if_pos (by omega)]
        rcases hnp with hno | hpf
        · by_cases hp : (pages clicks).pag_fail
          · rw [if_pos hp]
          · rw [if_neg hp, hno]
            simp
        · rw [if_pos hpf]
  · intro hrows hpf hok hlen hfuel
    cases fuel with
    | zero => omega
    | succ f =>
      rw [loopGo, if_neg (by omega)]
      simp only [hrows]
      have hs : scanRows target res [] = res := rfl
      rw [hs, if_pos hlen, if_neg (by simp [hpf]), if_pos hok]
      simp

theorem C3_empty_page_behaviour_witness :
    (loopGo (fun _ => PageView.mk [] false false false) 1 5 [] 0).1 = []
    ∧ loopGo pagesEmptyWithNext 1 5 [] 0 = loopGo pagesEmptyWithNext 1 4 [] 1 := by
  constructor
  · exact (C3_empty_page_behaviour (fun _ => PageView.mk [] false false false) 1 5 0 []).1
      rfl (Or.inl rfl)
  · exact (C3_empty_page_behaviour pagesEmptyWithNext 1 5 0 []).2 rfl rfl rfl
      (by decide) (by decide)

/-- C4: the final ResultSet satisfies the deduplication invariant — no
two accumulated records share an equal non-empty rank, nor an equal
non-empty name (whenever two records agree on a rank or name, that value
is empty) — and a row whose extracted rank or name duplicates an
already-accumulated non-empty value is silently skipped by the row scan
(the scan result is unchanged, no error). -/
theorem C4_dedup_invariant (pages : Nat → PageView) (init_fail : Bool) (target : Nat) :
    NoDupInv (scrape_top_n pages init_fail target)
    ∧ (∀ (tgt : Nat) (res : List Record) (ri : RowInput) (rest : List (Option RowInput)),
        (((extract_from_row ri).rank ≠ ""
            ∧ ∃ r ∈ res, r.rank = (extract_from_row ri).rank)
          ∨ ((extract_from_row ri).name ≠ ""
            ∧ ∃ r ∈ res, r.name = (extract_from_row ri).name)) →
        scanRows tgt res (some ri :: rest) = scanRows tgt res rest) := by
  constructor
  · rw [scrape_top_n]
    by_cases h : init_fail
    · rw [if_pos h]; exact List.Pairwise.nil
    · rw [if_neg h]
      exact List.Pairwise.sublist (List.take_sublist _ _)
        (loopGo_noDup pages target MAX_PAGE_NAVIGATIONS [] 0 List.Pairwise.nil)
  · intro tgt res ri rest hdup
    have hb : dupRank res (extract_from_row ri) = true
        ∨ dupName res (extract_from_row ri) = true := by
      rcases hdup with ⟨hne, r, hrm, heq⟩ | ⟨hne, r, hrm, heq⟩
      · left
        simp only [dupRank, Bool.and_eq_true, bne_iff_ne, ne_eq, List.any_eq_true,
          beq_iff_eq]
        exact ⟨hne, r, hrm, heq⟩
      · right
        simp only [dupName, Bool.and_eq_true, bne_iff_ne, ne_eq, List.any_eq_true,
          beq_iff_eq]
        exact ⟨hne, r, hrm, heq⟩
    by_cases hst : tgt ≤ res.length
    · rw [scanRows_stop _ _ _ hst, scanRows_stop _ _ _ hst]
    · rw [scanRows, if_neg hst]
      simp only
      by_cases hg : !gateOk (extract_from_row ri)
      · rw [if_pos hg]
      · rw [if_neg hg]
        rcases hb with hr | hn
        · rw [if_pos hr]
        · by_cases hr : dupRank res (extract_from_row ri)
          · rw [if_pos hr]
          · rw [if_neg hr, if_pos hn]

theorem C4_dedup_invariant_witness :
    scanRows 5 [extract_from_row riRank1] (some riRank1 :: [])
      = scanRows 5 [extract_from_row riRank1] [] :=
  (C4_dedup_invariant pagesOneRow false 0).2 5 [extract_from_row riRank1] riRank1 []
    (Or.inl ⟨by decide, extract_from_row riRank1, by decide, rfl⟩)

/-- C5: a record with all of rank, name and price empty is never
accumulated: every record of the final ResultSet has at least one of
rank, name, price non-empty (the acceptance gate at source lines
260–261), regardless of its other fields. -/
theorem C5_acceptance_gate (pages : Nat → PageView) (init_fail : Bool) (target : Nat) :
    ∀ r ∈ scrape_top_n pages init_fail target,
      r.rank ≠ "" ∨ r.name ≠ "" ∨ r.price ≠ "" := by
  intro r hr
  rw [scrape_top_n] at hr
  by_cases h : init_fail
  · rw [if_pos h] at hr; simp at hr
  · rw [if_neg h] at hr
    have hmem : r ∈ (loopGo pages target MAX_PAGE_NAVIGATIONS [] 0).1 :=
      List.mem_of_mem_take hr
    refine loopGo_invariant (fun d => d.rank ≠ "" ∨ d.name ≠ "" ∨ d.price ≠ "")
      pages target ?_ MAX_PAGE_NAVIGATIONS [] 0 (by simp) r hmem
    intro ri hg
    simp only [gateOk, Bool.not_eq_true', Bool.and_eq_false_iff, beq_eq_false_iff_ne,
      ne_eq] at hg
    rcases hg with (hn | hp) | hrk
    · exact Or.inr (Or.inl hn)
    · exact Or.inr (Or.inr hp)
    · exact Or.inl hrk

theorem C5_acceptance_gate_witness :
    (extract_from_row riRank1).rank ≠ "" ∨ (extract_from_row riRank1).name ≠ ""
      ∨ (extract_from_row riRank1).price ≠ "" :=
  C5_acceptance_gate pagesOneRow false 5 (extract_from_row riRank1) (by decide)

/-! ### Facts about the stable descending sort -/

theorem insertDesc_perm (x : String) : ∀ l : List String, (insertDesc x l).Perm (x :: l) := by
  intro l
  induction l with
  | nil => exact List.Perm.refl _
  | cons y ys ih =>
    rw [insertDesc]
    by_cases h : y.length < x.length
    · rw [if_pos h]
    · rw [if_neg h]
      exact (List.Perm.cons y ih).trans (List.Perm.swap x y ys)

theorem sortLenDesc_perm (l : List String) : (sortLenDesc l).Perm l := by
  suffices hgen : ∀ (l acc : List String),
      (l.foldl (fun acc x => insertDesc x acc) acc).Perm (acc ++ l) by
    simpa using hgen l []
  intro l
  induction l with
  | nil => intro acc; simp
  | cons x xs ih =>
    intro acc
    rw [List.foldl_cons]
    refine (ih (insertDesc x acc)).trans ?_
    have h1 : (insertDesc x acc ++ xs).Perm ((x :: acc) ++ xs) :=
      (insertDesc_perm x acc).append_right xs
    refine h1.trans ?_
    rw [List.cons_append]
    exact List.perm_middle.symm

theorem insertDesc_sorted (x : String) (l : List String)
    (h : l.Pairwise (fun a b => b.length ≤ a.length)) :
    (insertDesc x l).Pairwise (fun a b => b.length ≤ a.length) := by
  induction l with
  | nil => simp [insertDesc]
  | cons y ys ih =>
    rcases List.pairwise_cons.mp h with ⟨hy, hys⟩
    rw [insertDesc]
    by_cases hlt : y.length < x.length
    · rw [if_pos hlt]
      refine List.pairwise_cons.mpr ⟨?_, h⟩
      intro b hb
      rcases List.mem_cons.mp hb with hb | hb
      · rw [hb]; omega
      · have := hy b hb; omega
    · rw [if_neg hlt]
      refine List.pairwise_cons.mpr ⟨?_, ih hys⟩
      intro b hb
      have hmem : b ∈ x :: ys := (insertDesc_perm x ys).mem_iff.mp hb
      rcases List.mem_cons.mp hmem with hb' | hb'
      · rw [hb']; omega
      · exact hy b hb'

theorem sortLenDesc_append_one (l : List String) (x : String) :
    sortLenDesc (l ++ [x]) = insertDesc x (sortLenDesc l) := by
  simp [sortLenDesc, List.foldl_append]

theorem sortLenDesc_sorted (l : List String) :
    (sortLenDesc l).Pairwise (fun a b => b.length ≤ a.length) := by
  induction l using List.reverseRecOn with
  | nil => exact List.Pairwise.nil
  | append_singleton l x ih =>
    rw [sortLenDesc_append_one]
    exact insertDesc_sorted x _ ih

/-- The head of the stable descending sort is the first element of
maximal length: every element of the list strictly before it is strictly
shorter. -/
theorem sortLenDesc_head_first (l : List String) :
    ∀ m rest, sortLenDesc l = m :: rest →
      ∃ l1 l2, l = l1 ++ m :: l2 ∧ ∀ c ∈ l1, c.length < m.length := by
  induction l using List.reverseRecOn with
  | nil => intro m rest h; simp [sortLenDesc] at h
  | append_singleton l x ih =>
    intro m rest h
    rw [sortLenDesc_append_one] at h
    cases hs : sortLenDesc l with
    | nil =>
      have hl : l = [] := by
        have := (sortLenDesc_perm l).symm
        rw [hs] at this
        exact this.eq_nil
      rw [hs] at h
      rw [insertDesc] at h
      have hm : m = x := by
        have := List.head_eq_of_cons_eq h.symm
        rw [this]
      refine ⟨[], [], ?_, by simp⟩
      rw [hl, hm]
    | cons y ys =>
      rw [hs, insertDesc] at h
      by_cases hlt : y.length < x.length
      · rw [if_pos hlt] at h
        have hm : m = x := (List.head_eq_of_cons_eq h.symm)
        subst hm
        refine ⟨l, [], rfl, ?_⟩
        intro c hc
        have hc' : c ∈ y :: ys := by
          rw [← hs]
          exact (sortLenDesc_perm l).symm.subset hc
        have hsorted := sortLenDesc_sorted l
        rw [hs] at hsorted
        rcases List.mem_cons.mp hc' with hcy | hcys
        · rw [hcy]; exact hlt
        · have := (List.pairwise_cons.mp hsorted).1 c hcys
          omega
      · rw [if_neg hlt] at h
        have hm : m = y := (List.head_eq_of_cons_eq h.symm)
        subst hm
        obtain ⟨l1, l2, hsplit, hshort⟩ := ih m ys hs
        exact ⟨l1, l2 ++ [x], by rw [hsplit]; simp, hshort⟩

/-- Shared helper: with at least two `$`-marked cell texts, the volume
classifier picks a maximal-length element of the rest after removing one
maximal element — the second-longest. -/
theorem volume_second_longest (tds dollars : List String)
    (hd : dollars = tds.filter (fun t => t.data.contains '$'))
    (h2 : 2 ≤ dollars.length) :
    ∃ m, m ∈ dollars ∧ (∀ c ∈ dollars, c.length ≤ m.length)
      ∧ volume_classifier tds ∈ dollars.erase m
      ∧ ∀ c ∈ dollars.erase m, c.length ≤ (volume_classifier tds).length := by
  have hperm := sortLenDesc_perm dollars
  have hlen : 2 ≤ (sortLenDesc dollars).length := by rw [hperm.length_eq]; exact h2
  obtain ⟨m, v, rest, hs⟩ : ∃ m v rest, sortLenDesc dollars = m :: v :: rest := by
    cases hsd : sortLenDesc dollars with
    | nil => rw [hsd] at hlen; simp at hlen
    | cons a tl =>
      cases tl with
      | nil => rw [hsd] at hlen; simp at hlen
      | cons b tl2 => exact ⟨a, b, tl2, rfl⟩
  have hv : volume_classifier tds = v := by
    simp only [volume_classifier, ← hd, hs]
  have hsort := sortLenDesc_sorted dollars
  rw [hs] at hsort hperm
  have hm_mem : m ∈ dollars := hperm.subset (List.mem_cons_self _ _)
  have htail : (v :: rest).Perm (dollars.erase m) :=
    ((List.cons_perm_iff_perm_erase).mp hperm).2
  refine ⟨m, hm_mem, ?_, ?_, ?_⟩
  · intro c hc
    have hc' : c ∈ m :: v :: rest := hperm.symm.subset hc
    rcases List.mem_cons.mp hc' with h | h
    · rw [h]
    · exact (List.pairwise_cons.mp hsort).1 c h
  · rw [hv]
    exact htail.subset (List.mem_cons_self _ _)
  · intro c hc
    rw [hv]
    have hc' : c ∈ v :: rest := htail.symm.subset hc
    have hsort2 := (List.pairwise_cons.mp hsort).2
    rcases List.mem_cons.mp hc' with h | h
    · rw [h]
    · exact (List.pairwise_cons.mp hsort2).1 c h

/-! ### Claims about the classifiers -/

/-- C7: the market-cap classifier considers exactly the `$`-marked cell
texts of length strictly greater than 6; when some exist it returns a
candidate of maximal length, and among maximal-length ties the one
occurring first (every candidate strictly before it is strictly
shorter); when none exist it returns the empty string. -/
theorem C7_market_cap_longest (tds cands : List String)
    (hc : cands = tds.filter (fun t => t.data.contains '$' && decide (6 < t.length))) :
    (cands = [] → market_cap_classifier tds = "")
    ∧ (cands ≠ [] →
        market_cap_classifier tds ∈ cands
        ∧ (∀ c ∈ cands, c.length ≤ (market_cap_classifier tds).length)
        ∧ ∃ l1 l2, cands = l1 ++ market_cap_classifier tds :: l2
            ∧ ∀ c ∈ l1, c.length < (market_cap_classifier tds).length) := by
  constructor
  · intro hnil
    have : sortLenDesc cands = [] := by rw [hnil]; rfl
    simp only [market_cap_classifier, ← hc, this]
  · intro hne
    have hperm := sortLenDesc_perm cands
    obtain ⟨m, rest, hs⟩ : ∃ m rest, sortLenDesc cands = m :: rest := by
      cases hsd : sortLenDesc cands with
      | nil =>
        rw [hsd] at hperm
        exact absurd hperm.symm.eq_nil hne
      | cons a tl => exact ⟨a, tl, rfl⟩
    have hm : market_cap_classifier tds = m := by
      simp only [market_cap_classifier, ← hc, hs]
    rw [hs] at hperm
    have hsort := sortLenDesc_sorted cands
    rw [hs] at hsort
    rw [hm]
    refine ⟨hperm.subset (List.mem_cons_self _ _), ?_, ?_⟩
    · intro c hcm
      have hc' : c ∈ m :: rest := hperm.symm.subset hcm
      rcases List.mem_cons.mp hc' with h | h
      · rw [h]
      · exact (List.pairwise_cons.mp hsort).1 c h
    · exact sortLenDesc_head_first cands m rest hs

theorem C7_market_cap_longest_witness :
    (["$12,345,678", "$1,234,567"].filter
        (fun t => t.data.contains '$' && decide (6 < t.length)) ≠ [])
    ∧ (market_cap_classifier ["$12,345,678", "$1,234,567"]
          ∈ ["$12,345,678", "$1,234,567"].filter
              (fun t => t.data.contains '$' && decide (6 < t.length))
        ∧ (∀ c ∈ ["$12,345,678", "$1,234,567"].filter
              (fun t => t.data.contains '$' && decide (6 < t.length)),
            c.length ≤ (market_cap_classifier ["$12,345,678", "$1,234,567"]).length)
        ∧ ∃ l1 l2,
            ["$12,345,678", "$1,234,567"].filter
                (fun t => t.data.contains '$' && decide (6 < t.length))
              = l1 ++ market_cap_classifier ["$12,345,678", "$1,234,567"] :: l2
            ∧ ∀ c ∈ l1,
                c.length < (market_cap_classifier ["$12,345,678", "$1,234,567"]).length) :=
  ⟨by decide,
   (C7_market_cap_longest ["$12,345,678", "$1,234,567"] _ rfl).2 (by decide)⟩

/-- C8: the volume classifier collects all `$`-marked cell texts with no
length filter; with none or exactly one of them volume is the empty
string, and with at least two it returns the second-longest: a
maximal-length element of what remains after removing one maximal
element. -/
theorem C8_volume_second (tds dollars : List String)
    (hd : dollars = tds.filter (fun t => t.data.contains '$')) :
    (dollars.length = 0 → volume_classifier tds = "")
    ∧ (dollars.length = 1 → volume_classifier tds = "")
    ∧ (2 ≤ dollars.length →
        volume_classifier tds ∈ dollars
        ∧ ∃ m, m ∈ dollars ∧ (∀ c ∈ dollars, c.length ≤ m.length)
            ∧ volume_classifier tds ∈ dollars.erase m
            ∧ ∀ c ∈ dollars.erase m, c.length ≤ (volume_classifier tds).length) := by
  refine ⟨?_, ?_, ?_⟩
  · intro h0
    have hnil : dollars = [] := List.length_eq_zero.mp h0
    have : sortLenDesc dollars = [] := by rw [hnil]; rfl
    simp only [volume_classifier, ← hd, this]
  · intro h1
    obtain ⟨a, hone⟩ := List.length_eq_one.mp h1
    have : sortLenDesc dollars = [a] := by rw [hone]; rfl
    simp only [volume_classifier, ← hd, this]
  · intro h2
    obtain ⟨m, hm, hmax, hv, hvmax⟩ := volume_second_longest tds dollars hd h2
    exact ⟨List.mem_of_mem_erase hv, m, hm, hmax, hv, hvmax⟩

theorem C8_volume_second_witness :
    (volume_classifier ["$1.00"] = "")
    ∧ (volume_classifier ["$2.50", "$1.0"] ∈ ["$2.50", "$1.0"]
        ∧ ∃ m, m ∈ ["$2.50", "$1.0"]
            ∧ (∀ c ∈ ["$2.50", "$1.0"], c.length ≤ m.length)
            ∧ volume_classifier ["$2.50", "$1.0"] ∈ (["$2.50", "$1.0"]).erase m
            ∧ ∀ c ∈ (["$2.50", "$1.0"]).erase m,
                c.length ≤ (volume_classifier ["$2.50", "$1.0"]).length) :=
  ⟨(C8_volume_second ["$1.00"] _ rfl).2.1 (by decide),
   (C8_volume_second ["$2.50", "$1.0"] _ rfl).2.2 (by decide)⟩

/-- Every normalized cell text handed to the classifiers is a fixed point
of `clean_text` (each cell is cleaned on append, source line 91). -/
theorem tdsOf_clean (ri : RowInput) : ∀ t ∈ tdsOf ri, clean_text (some t) = t := by
  intro t ht
  rw [tdsOf] at ht
  cases hc : ri.cells with
  | none => rw [hc] at ht; simp at ht
  | some cs =>
    rw [hc] at ht
    simp only [List.mem_map] at ht
    obtain ⟨c, _, rfl⟩ := ht
    exact clean_text_idem _

/-- C10: whenever a row's normalized cells contain at least two
`$`-marked texts, all of length at most 6, extraction leaves market_cap
unresolved (empty) while volume_24h is resolved: it equals the
classifier's second-longest `$`-marked cell text and is non-empty. -/
theorem C10_volume_without_market_cap (ri : RowInput) (dollars : List String)
    (hd : dollars = (tdsOf ri).filter (fun t => t.data.contains '$'))
    (h2 : 2 ≤ dollars.length)
    (hshort : ∀ t ∈ dollars, t.length ≤ 6) :
    (extract_from_row ri).market_cap = ""
    ∧ (extract_from_row ri).volume_24h = volume_classifier (tdsOf ri)
    ∧ (extract_from_row ri).volume_24h ≠ ""
    ∧ ∃ m, m ∈ dollars ∧ (∀ c ∈ dollars, c.length ≤ m.length)
        ∧ (extract_from_row ri).volume_24h ∈ dollars.erase m
        ∧ ∀ c ∈ dollars.erase m, c.length ≤ (extract_from_row ri).volume_24h.length := by
  obtain ⟨m, hm, hmax, hv, hvmax⟩ := volume_second_longest (tdsOf ri) dollars hd h2
  have hvd : volume_classifier (tdsOf ri) ∈ dollars := List.mem_of_mem_erase hv
  have hvtds : volume_classifier (tdsOf ri) ∈ tdsOf ri := by
    rw [hd] at hvd; exact (List.mem_filter.mp hvd).1
  have hvdollar : (volume_classifier (tdsOf ri)).data.contains '$' = true := by
    rw [hd] at hvd; exact (List.mem_filter.mp hvd).2
  have hvol_eq : (extract_from_row ri).volume_24h = volume_classifier (tdsOf ri) := by
    show clean_text (some (volume_classifier (tdsOf ri))) = volume_classifier (tdsOf ri)
    exact tdsOf_clean ri _ hvtds
  have hmc : (extract_from_row ri).market_cap = "" := by
    have hcand : (tdsOf ri).filter
        (fun t => t.data.contains '$' && decide (6 < t.length)) = [] := by
      rw [List.filter_eq_nil_iff]
      intro a ha hpa
      rw [Bool.and_eq_true] at hpa
      have ha' : a ∈ dollars := by
        rw [hd]
        exact List.mem_filter.mpr ⟨ha, hpa.1⟩
      have h6 : 6 < a.length := of_decide_eq_true hpa.2
      have := hshort a ha'
      omega
    have hsd : sortLenDesc ([] : List String) = [] := rfl
    have hmc' : market_cap_classifier (tdsOf ri) = "" := by
      simp only [market_cap_classifier, hcand, hsd]
    show clean_text (some (market_cap_classifier (tdsOf ri))) = ""
    rw [hmc']
    rfl
  have hne : (extract_from_row ri).volume_24h ≠ "" := by
    rw [hvol_eq]
    intro hemp
    rw [hemp] at hvdollar
    simp at hvdollar
  refine ⟨hmc, hvol_eq, hne, m, hm, hmax, ?_, ?_⟩
  · rw [hvol_eq]; exact hv
  · intro c hc
    rw [hvol_eq]
    exact hvmax c hc

theorem C10_volume_without_market_cap_witness :
    (2 ≤ ((tdsOf ⟨some [some "$2.50", some "$1.0"], ⟨none, none⟩, none⟩).filter
        (fun t => t.data.contains '$')).length)
    ∧ (extract_from_row ⟨some [some "$2.50", some "$1.0"], ⟨none, none⟩, none⟩).market_cap = ""
    ∧ (extract_from_row ⟨some [some "$2.50", some "$1.0"], ⟨none, none⟩, none⟩).volume_24h
        = "$1.0" := by
  have h := C10_volume_without_market_cap
    ⟨some [some "$2.50", some "$1.0"], ⟨none, none⟩, none⟩ _ rfl (by decide) (by decide)
  exact ⟨by decide, h.1, by rw [h.2.1]; decide⟩

/-- C6 counterexample: the change classifier's condition is only
`"%" in t and re.search(r"-?\d+(\.\d+)?%", t)` — there is no
currency-marker exclusion, so a fragment carrying a `$` (a currency
marker, `likely_money`) is selected as change_24h. -/
theorem C6_counterexample :
    change_classifier ["$1 -3.2%"] = "$1 -3.2%"
    ∧ likely_money "$1 -3.2%" = true := ⟨by decide, by decide⟩

/-- C6 (amended): the change classifier returns the first fragment that
contains `%` and matches the signed-decimal-percent pattern
`-?\d+(\.\d+)?%` somewhere, regardless of currency markers; if no
fragment qualifies the field is empty.  A non-empty result always
qualifies and occurs in the fragment list. -/
theorem C6_change_first_qualifying (tds : List String) :
    (change_classifier tds = ""
      ∨ (change_classifier tds ∈ tds
          ∧ (change_classifier tds).data.contains '%' = true
          ∧ reSearchPct (change_classifier tds) = true))
    ∧ ((∀ t ∈ tds, (t.data.contains '%' && reSearchPct t) = false) →
        change_classifier tds = "")
    ∧ (∀ l1 t l2, tds = l1 ++ t :: l2 →
        (t.data.contains '%' && reSearchPct t) = true →
        (∀ u ∈ l1, (u.data.contains '%' && reSearchPct u) = false) →
        change_classifier tds = t) := by
  refine ⟨?_, ?_, ?_⟩
  · cases hf : tds.find? (fun t => t.data.contains '%' && reSearchPct t) with
    | none =>
      left
      rw [change_classifier, hf]
    | some t =>
      right
      have heq : change_classifier tds = t := by rw [change_classifier, hf]
      have hp := List.find?_some hf
      rw [Bool.and_eq_true] at hp
      rw [heq]
      exact ⟨List.mem_of_find?_eq_some hf, hp.1, hp.2⟩
  · intro hall
    have : tds.find? (fun t => t.data.contains '%' && reSearchPct t) = none := by
      rw [List.find?_eq_none]
      intro x hx
      rw [hall x hx]
      exact Bool.false_ne_true
    rw [change_classifier, this]
  · intro l1 t l2 hsplit hq hbefore
    have hfind : ∀ l1 : List String,
        (∀ u ∈ l1, (u.data.contains '%' && reSearchPct u) = false) →
        (l1 ++ t :: l2).find? (fun t => t.data.contains '%' && reSearchPct t) = some t := by
      intro l1
      induction l1 with
      | nil =>
        intro _
        rw [List.nil_append]
        exact List.find?_cons_of_pos _ hq
      | cons u us ih =>
        intro hb
        rw [List.cons_append,
          List.find?_cons_of_neg _ (by simpa using hb u (List.mem_cons_self _ _))]
        exact ih (fun w hw => hb w (List.mem_cons_of_mem _ hw))
    rw [change_classifier, hsplit, hfind l1 hbefore]

theorem C6_change_first_qualifying_witness :
    change_classifier ["abc", "-3.2%"] = "-3.2%" :=
  (C6_change_first_qualifying ["abc", "-3.2%"]).2.2 ["abc"] "-3.2%" [] rfl
    (by decide) (by decide)

/-- A token step never overwrites an already non-empty name. -/
theorem tokenStep_name (ns : NS) (p0 : String) (h : ns.name ≠ "") :
    (tokenStep ns p0).1.name = ns.name := by
  have hb : (ns.name != "") = true := by simpa using h
  have hb' : (ns.name == "") = false := by simpa using h
  rw [tokenStep]
  split
  · split
    · simp [hb]
    · split
      · rfl
      · split
        · rename_i hcond
          rw [Bool.and_eq_true, hb'] at hcond
          exact absurd hcond.2 Bool.false_ne_true
        · rfl
  · rfl

/-- A token step never overwrites an already non-empty symbol. -/
theorem tokenStep_symbol (ns : NS) (p0 : String) (h : ns.symbol ≠ "") :
    (tokenStep ns p0).1.symbol = ns.symbol := by
  have hb : (ns.symbol != "") = true := by simpa using h
  rw [tokenStep]
  split
  · split
    · simp [hb]
    · split
      · simp [hb]
      · split
        · rfl
        · rfl
  · rfl

theorem partsLoop_name (ps : List String) : ∀ ns : NS, ns.name ≠ "" →
    (partsLoop ns ps).name = ns.name := by
  induction ps with
  | nil => intro ns _; rfl
  | cons p ps ih =>
    intro ns h
    rw [partsLoop]
    split
    · exact tokenStep_name ns p h
    · rw [ih _ (by rw [tokenStep_name ns p h]; exact h)]
      exact tokenStep_name ns p h

theorem partsLoop_symbol (ps : List String) : ∀ ns : NS, ns.symbol ≠ "" →
    (partsLoop ns ps).symbol = ns.symbol := by
  induction ps with
  | nil => intro ns _; rfl
  | cons p ps ih =>
    intro ns h
    rw [partsLoop]
    split
    · exact tokenStep_symbol ns p h
    · rw [ih _ (by rw [tokenStep_symbol ns p h]; exact h)]
      exact tokenStep_symbol ns p h

theorem nameSymFallback_name (tds : List String) : ∀ ns : NS, ns.name ≠ "" →
    (nameSymFallback ns tds).name = ns.name := by
  induction tds with
  | nil => intro ns _; rfl
  | cons t ts ih =>
    intro ns h
    rw [nameSymFallback, List.foldl_cons]
    split
    · have h1 := partsLoop_name (pySplitSep t) ns h
      have h2 := ih (partsLoop ns (pySplitSep t)) (by rw [h1]; exact h)
      rw [nameSymFallback] at h2
      rw [h2, h1]
    · exact ih ns h

theorem nameSymFallback_symbol (tds : List String) : ∀ ns : NS, ns.symbol ≠ "" →
    (nameSymFallback ns tds).symbol = ns.symbol := by
  induction tds with
  | nil => intro ns _; rfl
  | cons t ts ih =>
    intro ns h
    rw [nameSymFallback, List.foldl_cons]
    split
    · have h1 := partsLoop_symbol (pySplitSep t) ns h
      have h2 := ih (partsLoop ns (pySplitSep t)) (by rw [h1]; exact h)
      rw [nameSymFallback] at h2
      rw [h2, h1]
    · exact ih ns h

/-- C9: when no structured hints resolved, the name/symbol fallback on
the single fragment "Bitcoin BTC" yields name "Bitcoin" and symbol
"BTC"; on the single fragment "XRP" (all caps, length 3) it yields
symbol "XRP" and empty name; and across all fragments a field, once
non-empty, is never overwritten by any later token — so the first
satisfying token per field wins. -/
theorem C9_name_symbol_fallback :
    nameSymFallback ⟨"", ""⟩ ["Bitcoin BTC"] = ⟨"Bitcoin", "BTC"⟩
    ∧ nameSymFallback ⟨"", ""⟩ ["XRP"] = ⟨"", "XRP"⟩
    ∧ (∀ (ns : NS) (tds : List String), ns.name ≠ "" →
        (nameSymFallback ns tds).name = ns.name)
    ∧ (∀ (ns : NS) (tds : List String), ns.symbol ≠ "" →
        (nameSymFallback ns tds).symbol = ns.symbol) :=
  ⟨by decide, by decide,
   fun ns tds h => nameSymFallback_name tds ns h,
   fun ns tds h => nameSymFallback_symbol tds ns h⟩

theorem C9_name_symbol_fallback_witness :
    (nameSymFallback ⟨"Ether", "ETH"⟩ ["Bitcoin BTC"]).name = "Ether"
    ∧ (nameSymFallback ⟨"Ether", "ETH"⟩ ["Bitcoin BTC"]).symbol = "ETH" :=
  ⟨C9_name_symbol_fallback.2.2.1 ⟨"Ether", "ETH"⟩ ["Bitcoin BTC"] (by decide),
   C9_name_symbol_fallback.2.2.2 ⟨"Ether", "ETH"⟩ ["Bitcoin BTC"] (by decide)⟩
